import Mathlib

/-!
# fizzed/jne: the two native `cat` test programs

A shallow embedding of `src/native/cat.c` ("mycat", lenient) and
`src/native/jcat/jcat.c` ("jcat", strict), and the properties of their
observable behaviour: standard output, standard error, exit code, the
sequence of C library calls and the set of open file handles.

The C library is not part of the repository; it is modelled from ISO C:

* `fgets(buf, n, fp)` stores at most `n - 1` bytes, stops after a newline or at
  end of file, appends a NUL, and returns NULL when no byte could be stored;
* `fputs(buf, stdout)` writes the bytes of `buf` up to its first NUL;
* `fopen(path, "r")` either fails with an `errno` or yields a fresh stream
  (no newline translation, as on POSIX);
* reads and writes never fail part-way.

`BUFSIZ`, the file system and `strerror` are parameters (`World`).  The
`while` loop of `cat_it` is unrolled under a fuel bound: `none` means that the
bound was reached before the loop ended.
-/

namespace Jne

/-! ## Data model -/

/-- One byte of a stream. -/
abbrev Byte := Fin 256

/-- The platform: the `stdio.h` constant `BUFSIZ`, the outcome of
`fopen(path, "r")` for each path (an `errno` or the file content), and
`strerror`. -/
structure World where
  BUFSIZ : Nat
  file : String → Except Nat (List Byte)
  strerror : Nat → String

/-- A `FILE` object open for reading: its identity and the bytes not yet read. -/
structure FILE where
  fd : Nat
  unread : List Byte
deriving DecidableEq, Repr

/-- One C library call made by the program, with what it returned or wrote. -/
inductive Event where
  | fopen (path : String) (res : Option Nat)
  | fgets (fd : Nat) (res : Option (List Byte))
  | fputs (bytes : List Byte)
  | fprintf (text : String)
  | fclose (fd : Nat)
deriving DecidableEq, Repr

/-- A library call together with the handles open right after it. -/
structure Step where
  ev : Event
  openAfter : List Nat
deriving DecidableEq, Repr

/-- The process state: the three standard streams, the handles of the files
currently open, the next unused handle, and the history of library calls. -/
structure State where
  stdin : FILE
  stdout : List Byte
  stderr : String
  handles : List Nat
  next : Nat
  log : List Step
deriving DecidableEq, Repr

/-- The state at program start: nothing written yet, no file open; handle 0
is standard input and the handles from 3 on are free. -/
def State.init (input : List Byte) : State :=
  { stdin := ⟨0, input⟩, stdout := [], stderr := "", handles := [], next := 3, log := [] }

/-- Appends a library call to the history, with the handles open after it. -/
def State.record (s : State) (e : Event) : State :=
  { s with log := s.log ++ [⟨e, s.handles⟩] }

/-! ## The C library -/

/-- The scan of `fgets`: moves bytes from the stream to the buffer until `k`
bytes are stored, a newline has been stored, or the stream ends.  Returns the
bytes stored and the bytes left in the stream. -/
def getline : Nat → List Byte → List Byte × List Byte
  | 0, s => ([], s)
  | _ + 1, [] => ([], [])
  | k + 1, b :: s =>
    if b = 10 then ([b], s)
    else (b :: (getline k s).1, (getline k s).2)

/-- The call `fgets(buf, n, fp)`: the new content of `buf` (NUL-terminated), or
`none` for NULL, and the stream afterwards. -/
def fgets (n : Nat) (fp : FILE) : Option (List Byte) × FILE :=
  if n = 0 then (none, fp)
  else if n = 1 then (some [0], fp)
  else if (getline (n - 1) fp.unread).1 = [] then (none, fp)
  else (some ((getline (n - 1) fp.unread).1 ++ [0]), { fp with unread := (getline (n - 1) fp.unread).2 })

/-- The bytes of the C string held in `buf`: those before its first NUL. -/
def cstr (buf : List Byte) : List Byte :=
  buf.takeWhile (fun b => b ≠ 0)

/-- The call `fputs(buf, stdout)`. -/
def fputs (buf : List Byte) (s : State) : State :=
  ({ s with stdout := s.stdout ++ cstr buf }).record (.fputs (cstr buf))

/-- The call `fprintf(stderr, ...)` with the formatted text. -/
def fprintf_stderr (text : String) (s : State) : State :=
  ({ s with stderr := s.stderr ++ text }).record (.fprintf text)

/-- The call `fopen(path, "r")`: on success a fresh handle becomes open. -/
def fopen (w : World) (path : String) (s : State) : Except Nat FILE × State :=
  match w.file path with
  | .error errno => (.error errno, s.record (.fopen path none))
  | .ok content =>
    (.ok ⟨s.next, content⟩,
      ({ s with handles := s.next :: s.handles, next := s.next + 1 }).record
        (.fopen path (some s.next)))

/-- The call `fclose(fp)`. -/
def fclose (fp : FILE) (s : State) : State :=
  ({ s with handles := s.handles.erase fp.fd }).record (.fclose fp.fd)

/-! ## The programs -/

/-- The function `cat_it` (identical in both files):
`while (fgets(buf, sizeof(buf), fp)) fputs(buf, stdout);` with at most `fuel`
calls of `fgets`.  Returns the stream and the state when the loop ends. -/
def cat_it (w : World) : Nat → FILE → State → Option (FILE × State)
  | 0, _, _ => none
  | fuel + 1, fp, s =>
    match fgets w.BUFSIZ fp with
    | (none, fp1) => some (fp1, s.record (.fgets fp.fd none))
    | (some buf, fp1) =>
      cat_it w fuel fp1 (fputs buf (s.record (.fgets fp.fd (some buf))))

/-- The `for` loop of `main` in `cat.c` over `argv[1..]`. -/
def Cat.loop (w : World) (fuel : Nat) : List String → State → Option State
  | [], s => some s
  | a :: rest, s =>
    match fopen w a s with
    | (.error errno, s1) =>
      Cat.loop w fuel rest
        (fprintf_stderr ("mycat: " ++ a ++ ": " ++ w.strerror errno ++ "\n") s1)
    | (.ok fp, s1) =>
      match cat_it w fuel fp s1 with
      | none => none
      | some (fp1, s2) => Cat.loop w fuel rest (fclose fp1 s2)

/-- The function `main` of `cat.c`; `args` is `argv[1..]`, so that `argc` is
`args.length + 1`.  Returns the exit code and the final state. -/
def Cat.main (w : World) (fuel : Nat) (args : List String) (s : State) :
    Option (Int × State) :=
  if args.length + 1 < 2 then
    match cat_it w fuel s.stdin s with
    | none => none
    | some (fp1, s1) => some (0, { s1 with stdin := fp1 })
  else
    match Cat.loop w fuel args s with
    | none => none
    | some s1 => some (0, s1)

/-- The `for` loop of `main` in `jcat.c`: `some code` in the first component
is a `return code` from inside the loop. -/
def Jcat.loop (w : World) (fuel : Nat) : List String → State → Option (Option Int × State)
  | [], s => some (none, s)
  | a :: rest, s =>
    match fopen w a s with
    | (.error errno, s1) =>
      some (some 1,
        fprintf_stderr ("jcat: " ++ a ++ ": " ++ w.strerror errno ++ "\n") s1)
    | (.ok fp, s1) =>
      match cat_it w fuel fp s1 with
      | none => none
      | some (fp1, s2) => Jcat.loop w fuel rest (fclose fp1 s2)

/-- The function `main` of `jcat.c`, with `args` and the result as for
`cat.c`. -/
def Jcat.main (w : World) (fuel : Nat) (args : List String) (s : State) :
    Option (Int × State) :=
  if args.length + 1 < 2 then
    match cat_it w fuel s.stdin s with
    | none => none
    | some (fp1, s1) => some (0, { s1 with stdin := fp1 })
  else
    match Jcat.loop w fuel args s with
    | none => none
    | some (some code, s1) => some (code, s1)
    | some (none, s1) => some (0, s1)

/-! ## Observations on a run -/

/-- Whether `fopen(path, "r")` succeeds. -/
def opens (w : World) (path : String) : Bool :=
  match w.file path with
  | .ok _ => true
  | .error _ => false

/-- The content of the file at `path` (empty when it cannot be opened). -/
def content (w : World) (path : String) : List Byte :=
  match w.file path with
  | .ok c => c
  | .error _ => []

/-- The system error description for a failed open of `path`. -/
def reason (w : World) (path : String) : String :=
  match w.file path with
  | .ok _ => ""
  | .error errno => w.strerror errno

/-- The diagnostic line `<prog>: <path>: <reason>\n`. -/
def diag (w : World) (prog path : String) : String :=
  prog ++ ": " ++ path ++ ": " ++ reason w path ++ "\n"

/-- The events of a copy that read the given chunks in turn and then met end
of file, all with the handles `hs` open. -/
def copyLog (fd : Nat) (hs : List Nat) : List (List Byte) → List Step
  | [] => [⟨.fgets fd none, hs⟩]
  | c :: cs =>
    ⟨.fgets fd (some (c ++ [0])), hs⟩ :: ⟨.fputs (cstr c), hs⟩ :: copyLog fd hs cs

/-- The state after a copy that read the given chunks from stream `fd`. -/
def State.copied (s : State) (fd : Nat) (chunks : List (List Byte)) : State :=
  { s with stdout := s.stdout ++ (chunks.map cstr).flatten,
           log := s.log ++ copyLog fd s.handles chunks }

/-- The paths passed to `fopen`, in call order. -/
def attempts (log : List Step) : List String :=
  log.filterMap fun st =>
    match st.ev with
    | .fopen p _ => some p
    | _ => none

/-- The texts written by `fprintf(stderr, ...)`, in call order. -/
def diagnostics (log : List Step) : List String :=
  log.filterMap fun st =>
    match st.ev with
    | .fprintf t => some t
    | _ => none

/-- The chunks written by `fputs`, in call order: one per cycle of the copy
loop. -/
def written (log : List Step) : List (List Byte) :=
  log.filterMap fun st =>
    match st.ev with
    | .fputs c => some c
    | _ => none

/-- The calls of `fgets` on the stream `fd`, with their results. -/
def reads (fd : Nat) (log : List Step) : List (Option (List Byte)) :=
  log.filterMap fun st =>
    match st.ev with
    | .fgets fd1 r => if fd1 = fd then some r else none
    | _ => none

/-- Where the program stands between two library calls, as far as file
handling goes: no file in hand; an open has just failed and its diagnostic is
due; handle `h` is open and the next call reads from it; a chunk read from `h`
is in the buffer and its write is due; `h` has reached end of file and its
close is due. -/
inductive Phase where
  | idle
  | failed
  | copying (h : Nat)
  | filled (h : Nat)
  | drained (h : Nat)
deriving DecidableEq, Repr

/-- The library call allowed next in each phase, and the phase it leads to;
`none` for any other call. -/
def Phase.step : Phase → Event → Option Phase
  | .idle, .fopen _ none => some .failed
  | .idle, .fopen _ (some h) => some (.copying h)
  | .failed, .fprintf _ => some .idle
  | .copying h, .fgets fd (some _) => if fd = h then some (.filled h) else none
  | .copying h, .fgets fd none => if fd = h then some (.drained h) else none
  | .filled h, .fputs _ => some (.copying h)
  | .drained h, .fclose fd => if fd = h then some .idle else none
  | _, _ => none

/-- Follows a sequence of library calls from a phase; `none` when some call
is out of turn. -/
def Phase.run : Phase → List Event → Option Phase
  | p, [] => some p
  | p, e :: es =>
    match p.step e with
    | none => none
    | some q => q.run es

/-- The `for` loop of `cat.c` with the program name of the diagnostic as a
parameter; both loops are instances of it (`cat_loop_eq`, `jcat_loop_eq`). -/
def diagLoop (prog : String) (w : World) (fuel : Nat) : List String → State → Option State
  | [], s => some s
  | a :: rest, s =>
    match fopen w a s with
    | (.error errno, s1) =>
      diagLoop prog w fuel rest
        (fprintf_stderr (prog ++ ": " ++ a ++ ": " ++ w.strerror errno ++ "\n") s1)
    | (.ok fp, s1) =>
      match cat_it w fuel fp s1 with
      | none => none
      | some (fp1, s2) => diagLoop prog w fuel rest (fclose fp1 s2)

/-- The arguments the strict loop reaches: those before the first one that
fails to open, and that one. -/
def reached (w : World) : List String → List String
  | [] => []
  | a :: rest => if opens w a then a :: reached w rest else [a]

/-- The state after a failed open of `a` and its diagnostic. -/
def State.afterFail (s : State) (w : World) (prog a : String) : State :=
  { s with stderr := s.stderr ++ diag w prog a,
           log := s.log ++ [⟨.fopen a none, s.handles⟩, ⟨.fprintf (diag w prog a), s.handles⟩] }

/-- The state after `a` was opened as handle `s.next`, copied as the given
chunks, and closed. -/
def State.afterCopy (s : State) (a : String) (chunks : List (List Byte)) : State :=
  { s with stdout := s.stdout ++ (chunks.map cstr).flatten,
           next := s.next + 1,
           log := s.log ++ (⟨.fopen a (some s.next), s.next :: s.handles⟩ ::
             (copyLog s.next (s.next :: s.handles) chunks ++ [⟨.fclose s.next, s.handles⟩])) }

/-- The arguments that fail to open. -/
def failing (w : World) (args : List String) : List String :=
  args.filter (fun a => !opens w a)

/-- The given texts one after another. -/
def catLines : List String → String
  | [] => ""
  | x :: xs => x ++ catLines xs

/-- The contents of the arguments that open, concatenated in order. -/
def concat (w : World) (args : List String) : List Byte :=
  ((args.filter (opens w)).map (content w)).flatten

/-- What a run of the loop over `args` from `s` to `t` did: `new` is the
history it added and `out` the bytes it wrote to standard output. -/
structure LoopEffect (w : World) (prog : String) (args : List String) (s t : State)
    (new : List Step) (out : List Byte) : Prop where
  stdin_eq : t.stdin = s.stdin
  handles_eq : t.handles = s.handles
  next_le : s.next ≤ t.next
  stderr_eq : t.stderr = s.stderr ++ catLines ((failing w args).map (diag w prog))
  log_eq : t.log = s.log ++ new
  stdout_eq : t.stdout = s.stdout ++ out
  snapshots : ∀ st ∈ new, st.openAfter = s.handles ∨ ∃ h, st.openAfter = h :: s.handles
  failed_open : ∀ st ∈ new, ∀ p, st.ev = .fopen p none → st.openAfter = s.handles
  closed : ∀ st ∈ new, ∀ h, st.ev = .fclose h → st.openAfter = s.handles
  opened : ∀ st ∈ new, ∀ p h, st.ev = .fopen p (some h) → st.openAfter = h :: s.handles
  phases : Phase.idle.run (new.map Step.ev) = some .idle
  attempts_eq : attempts new = args
  diagnostics_eq : diagnostics new = (failing w args).map (diag w prog)
  reads_old : ∀ fd, fd < s.next → reads fd new = []
  out_le : out.length ≤ (concat w args).length
  out_clean : (∀ a ∈ args, ∀ b ∈ content w a, b ≠ 0) → out = concat w args
  out_short : (∃ a ∈ args, (0 : Byte) ∈ content w a) → out.length < (concat w args).length

/-- The number of newline characters in a text. -/
def newlines (text : String) : Nat :=
  text.data.count (Char.ofNat 10)

/-! ## Demonstration worlds -/

/-- A file system with three small text files, two more files and one file
with bytes above 127; every other path fails with `ENOENT`. -/
def demo : World :=
  { BUFSIZ := 8192,
    file := fun p =>
      if p = "a.txt" then .ok [97, 98]
      else if p = "b.txt" then .ok [99, 100]
      else if p = "c.txt" then .ok [101, 102]
      else if p = "exists.txt" then .ok [104, 105, 10]
      else if p = "exists2.txt" then .ok [98, 121, 101, 10]
      else if p = "high.bin" then .ok [255, 128, 10, 200, 1]
      else if p = "data.bin" then .ok [65, 0, 66, 10, 67, 10]
      else .error 2,
    strerror := fun e => if e = 2 then "No such file or directory" else "Unknown error" }

/-- A platform with the smallest `BUFSIZ` that ISO C allows and no files. -/
def small : World :=
  { BUFSIZ := 256,
    file := fun _ => .error 2,
    strerror := fun _ => "No such file or directory" }

/-! ## The scan of `fgets` -/

theorem getline_append (k : Nat) (s : List Byte) :
    (getline k s).1 ++ (getline k s).2 = s := by
  induction k generalizing s with
  | zero => simp [getline]
  | succ k ih =>
    cases s with
    | nil => simp [getline]
    | cons b s =>
      by_cases hb : b = 10
      · simp [getline, hb]
      · simp [getline, hb, ih]

theorem getline_length_le (k : Nat) (s : List Byte) :
    (getline k s).1.length ≤ k := by
  induction k generalizing s with
  | zero => simp [getline]
  | succ k ih =>
    cases s with
    | nil => simp [getline]
    | cons b s =>
      by_cases hb : b = 10
      · simp [getline, hb]
      · simpa [getline, hb] using ih s

theorem getline_ne_nil (k : Nat) (s : List Byte) (hk : 0 < k) (hs : s ≠ []) :
    (getline k s).1 ≠ [] := by
  cases k with
  | zero => omega
  | succ k =>
    cases s with
    | nil => exact absurd rfl hs
    | cons b s =>
      by_cases hb : b = 10
      · simp [getline, hb]
      · simp [getline, hb]

theorem getline_nil (k : Nat) : (getline k []).1 = [] := by
  cases k <;> simp [getline]

/-- No byte of a chunk other than its last one is a newline. -/
theorem getline_dropLast (k : Nat) (s : List Byte) :
    ∀ b ∈ (getline k s).1.dropLast, b ≠ 10 := by
  induction k generalizing s with
  | zero => simp [getline]
  | succ k ih =>
    cases s with
    | nil => simp [getline]
    | cons b s =>
      by_cases hb : b = 10
      · simp [getline, hb]
      · intro x hx
        simp only [getline, hb, if_false] at hx
        cases hg : (getline k s).1 with
        | nil => simp [hg] at hx
        | cons y ys =>
          rw [hg, List.dropLast_cons₂] at hx
          rcases List.mem_cons.1 hx with h | h
          · exact h ▸ hb
          · exact ih s x (by rw [hg]; exact h)

/-- A chunk that is short of the buffer and leaves input behind ends with a
newline. -/
theorem getline_short (k : Nat) (s : List Byte)
    (hlen : (getline k s).1.length < k) (hrest : (getline k s).2 ≠ []) :
    (getline k s).1.getLast? = some 10 := by
  induction k generalizing s with
  | zero => simp at hlen
  | succ k ih =>
    cases s with
    | nil => simp [getline] at hrest
    | cons b s =>
      by_cases hb : b = 10
      · simp [getline, hb]
      · simp only [getline, hb, if_false, List.length_cons] at hlen hrest ⊢
        have h := ih s (by omega) hrest
        cases hg : (getline k s).1 with
        | nil => simp [hg] at h
        | cons y ys => rw [hg] at h; simpa using h

theorem cstr_cons_nul (c : List Byte) : cstr (0 :: c) = [] := by
  simp [cstr]

theorem cstr_cons_ne (b : Byte) (c : List Byte) (hb : b ≠ 0) :
    cstr (b :: c) = b :: cstr c := by
  simp [cstr, List.takeWhile_cons, hb]

theorem cstr_append_nul (c : List Byte) : cstr (c ++ [0]) = cstr c := by
  induction c with
  | nil => simp [cstr]
  | cons b c ih =>
    by_cases hb : b = 0
    · subst hb
      rw [List.cons_append, cstr_cons_nul, cstr_cons_nul]
    · rw [List.cons_append, cstr_cons_ne _ _ hb, cstr_cons_ne _ _ hb, ih]

theorem cstr_of_no_nul (c : List Byte) (h : ∀ b ∈ c, b ≠ 0) : cstr c = c := by
  induction c with
  | nil => simp [cstr]
  | cons b c ih =>
    have hb : b ≠ 0 := h b (by simp)
    rw [cstr_cons_ne _ _ hb, ih (fun x hx => h x (by simp [hx]))]

theorem cstr_length_le (c : List Byte) : (cstr c).length ≤ c.length := by
  unfold cstr
  exact (List.takeWhile_sublist _).length_le

theorem cstr_length_lt (c : List Byte) (h : (0 : Byte) ∈ c) : (cstr c).length < c.length := by
  induction c with
  | nil => simp at h
  | cons b c ih =>
    by_cases hb : b = 0
    · subst hb
      rw [cstr_cons_nul]
      simp
    · have hc : (0 : Byte) ∈ c := by
        rcases List.mem_cons.1 h with h | h
        · exact absurd h.symm hb
        · exact h
      have := ih hc
      rw [cstr_cons_ne _ _ hb]
      simp only [List.length_cons]
      omega

/-! ## The copy loop -/

/-- With `BUFSIZ ≥ 2` and more fuel than unread bytes, `cat_it` ends at end of
file having read the stream as a sequence of non-empty chunks of at most
`BUFSIZ - 1` bytes; the chunks depend on the unread bytes only. -/
theorem cat_it_run (w : World) (hB : 2 ≤ w.BUFSIZ) :
    ∀ (fuel : Nat) (u : List Byte), u.length < fuel →
      ∃ chunks : List (List Byte),
        chunks.flatten = u ∧
        (∀ c ∈ chunks, c ≠ [] ∧ c.length ≤ w.BUFSIZ - 1) ∧
        ∀ (fd : Nat) (s : State),
          cat_it w fuel ⟨fd, u⟩ s = some (⟨fd, []⟩, s.copied fd chunks) := by
  intro fuel
  induction fuel with
  | zero => intro u h; omega
  | succ fuel ih =>
    intro u hlen
    have h0 : w.BUFSIZ ≠ 0 := by omega
    have h1 : w.BUFSIZ ≠ 1 := by omega
    by_cases hg : (getline (w.BUFSIZ - 1) u).1 = []
    · have hnil : u = [] := by
        by_contra hne
        exact getline_ne_nil _ _ (by omega) hne hg
      subst hnil
      refine ⟨[], by simp, by simp, ?_⟩
      intro fd s
      simp [cat_it, fgets, h0, h1, getline_nil, State.copied, copyLog, State.record]
    · have happ := getline_append (w.BUFSIZ - 1) u
      have hpos : 0 < (getline (w.BUFSIZ - 1) u).1.length :=
        List.length_pos.2 hg
      have hrest : (getline (w.BUFSIZ - 1) u).2.length < fuel := by
        have := congrArg List.length happ
        simp only [List.length_append] at this
        omega
      obtain ⟨cs, hjoin, hprop, hrun⟩ := ih (getline (w.BUFSIZ - 1) u).2 hrest
      refine ⟨(getline (w.BUFSIZ - 1) u).1 :: cs, ?_, ?_, ?_⟩
      · simp only [List.flatten_cons, hjoin]
        exact happ
      · intro c hc
        rcases List.mem_cons.1 hc with h | h
        · subst h
          exact ⟨hg, getline_length_le _ _⟩
        · exact hprop c h
      · intro fd s
        simp only [cat_it, fgets, h0, h1, hg, if_false]
        rw [hrun]
        simp [State.copied, copyLog, fputs, State.record, cstr_append_nul]

/-! ## The argument loops -/

theorem cat_loop_eq (w : World) (fuel : Nat) (args : List String) (s : State) :
    Cat.loop w fuel args s = diagLoop "mycat" w fuel args s := by
  induction args generalizing s with
  | nil => rfl
  | cons a rest ih =>
    simp only [Cat.loop, diagLoop]
    split
    · exact ih _
    · split
      · rfl
      · exact ih _

theorem diagLoop_fail (prog : String) (w : World) (fuel : Nat) (a : String)
    (rest : List String) (s : State) (h : opens w a = false) :
    diagLoop prog w fuel (a :: rest) s = diagLoop prog w fuel rest (s.afterFail w prog a) := by
  unfold opens at h
  cases hf : w.file a with
  | ok c => simp [hf] at h
  | error e =>
    simp [diagLoop, fopen, hf, fprintf_stderr, State.record, State.afterFail, diag, reason]

theorem diagLoop_ok (w : World) (hB : 2 ≤ w.BUFSIZ) (fuel : Nat) (a : String)
    (h : opens w a = true) (hfuel : (content w a).length < fuel) :
    ∃ chunks : List (List Byte),
      chunks.flatten = content w a ∧
      (∀ c ∈ chunks, c ≠ [] ∧ c.length ≤ w.BUFSIZ - 1) ∧
      ∀ (prog : String) (rest : List String) (s : State),
        diagLoop prog w fuel (a :: rest) s = diagLoop prog w fuel rest (s.afterCopy a chunks) := by
  unfold opens at h
  unfold content at hfuel ⊢
  cases hf : w.file a with
  | error e => simp [hf] at h
  | ok c =>
    rw [hf] at hfuel
    simp only at hfuel
    obtain ⟨chunks, hj, hp, hrun⟩ := cat_it_run w hB fuel c hfuel
    refine ⟨chunks, hj, hp, ?_⟩
    intro prog rest s
    simp [diagLoop, fopen, hf, hrun, fclose, State.record, State.copied, State.afterCopy]

theorem jcat_loop_eq (w : World) (fuel : Nat) (args : List String) (s : State) :
    Jcat.loop w fuel args s =
      (diagLoop "jcat" w fuel (reached w args) s).map
        (fun t => (if args.all (opens w) then none else some 1, t)) := by
  induction args generalizing s with
  | nil => simp [Jcat.loop, diagLoop, reached]
  | cons a rest ih =>
    cases hf : w.file a with
    | error e =>
      have ho : opens w a = false := by simp [opens, hf]
      simp [Jcat.loop, diagLoop, reached, fopen, hf, ho]
    | ok c =>
      have ho : opens w a = true := by simp [opens, hf]
      simp only [Jcat.loop, diagLoop, reached, fopen, hf, ho, if_true, List.all_cons,
        Bool.true_and]
      cases cat_it w fuel ⟨s.next, c⟩
          ({ s with handles := s.next :: s.handles, next := s.next + 1 }.record
            (.fopen a (some s.next))) with
      | none => rfl
      | some r => exact ih _

/-! ### Observations on the events of one copy -/

theorem attempts_append (l1 l2 : List Step) :
    attempts (l1 ++ l2) = attempts l1 ++ attempts l2 := by
  simp [attempts]

theorem diagnostics_append (l1 l2 : List Step) :
    diagnostics (l1 ++ l2) = diagnostics l1 ++ diagnostics l2 := by
  simp [diagnostics]

theorem written_append (l1 l2 : List Step) :
    written (l1 ++ l2) = written l1 ++ written l2 := by
  simp [written]

theorem reads_append (fd : Nat) (l1 l2 : List Step) :
    reads fd (l1 ++ l2) = reads fd l1 ++ reads fd l2 := by
  simp [reads]

theorem attempts_cons (st : Step) (l : List Step) :
    attempts (st :: l) = attempts [st] ++ attempts l :=
  attempts_append [st] l

theorem diagnostics_cons (st : Step) (l : List Step) :
    diagnostics (st :: l) = diagnostics [st] ++ diagnostics l :=
  diagnostics_append [st] l

theorem reads_cons (fd : Nat) (st : Step) (l : List Step) :
    reads fd (st :: l) = reads fd [st] ++ reads fd l :=
  reads_append fd [st] l

theorem attempts_copyLog (fd : Nat) (hs : List Nat) (chunks : List (List Byte)) :
    attempts (copyLog fd hs chunks) = [] := by
  induction chunks with
  | nil => simp [copyLog, attempts]
  | cons c cs ih =>
    simp only [attempts] at ih
    simp [copyLog, attempts, ih]

theorem diagnostics_copyLog (fd : Nat) (hs : List Nat) (chunks : List (List Byte)) :
    diagnostics (copyLog fd hs chunks) = [] := by
  induction chunks with
  | nil => simp [copyLog, diagnostics]
  | cons c cs ih =>
    simp only [diagnostics] at ih
    simp [copyLog, diagnostics, ih]

theorem written_copyLog (fd : Nat) (hs : List Nat) (chunks : List (List Byte)) :
    written (copyLog fd hs chunks) = chunks.map cstr := by
  induction chunks with
  | nil => simp [copyLog, written]
  | cons c cs ih =>
    simp only [written] at ih
    simp [copyLog, written, ih]

theorem reads_copyLog_ne (fd fd1 : Nat) (hs : List Nat) (chunks : List (List Byte))
    (h : fd1 ≠ fd) : reads fd (copyLog fd1 hs chunks) = [] := by
  induction chunks with
  | nil => simp [copyLog, reads, h]
  | cons c cs ih =>
    simp only [reads] at ih
    simp [copyLog, reads, h, ih]

theorem reads_copyLog_self (fd : Nat) (hs : List Nat) (chunks : List (List Byte)) :
    reads fd (copyLog fd hs chunks) = chunks.map (fun c => some (c ++ [0])) ++ [none] := by
  induction chunks with
  | nil => simp [copyLog, reads]
  | cons c cs ih =>
    simp only [reads] at ih
    simp [copyLog, reads, ih]

theorem openAfter_copyLog (fd : Nat) (hs : List Nat) (chunks : List (List Byte)) :
    ∀ st ∈ copyLog fd hs chunks,
      st.openAfter = hs ∧ (∀ p r, st.ev ≠ .fopen p r) ∧ ∀ h, st.ev ≠ .fclose h := by
  induction chunks with
  | nil => simp [copyLog]
  | cons c cs ih =>
    intro st hst
    simp only [copyLog, List.mem_cons] at hst
    rcases hst with h | h | h
    · subst h; simp
    · subst h; simp
    · exact ih st h

theorem Phase.run_append (p : Phase) (l1 l2 : List Event) :
    p.run (l1 ++ l2) = (p.run l1).bind (fun q => q.run l2) := by
  induction l1 generalizing p with
  | nil => simp [Phase.run]
  | cons e es ih =>
    simp only [List.cons_append, Phase.run]
    cases p.step e with
    | none => simp
    | some q => simpa using ih q

theorem Phase.run_copyLog (fd : Nat) (hs : List Nat) (chunks : List (List Byte)) :
    (Phase.copying fd).run ((copyLog fd hs chunks).map Step.ev) = some (.drained fd) := by
  induction chunks with
  | nil => simp [copyLog, Phase.run, Phase.step]
  | cons c cs ih => simpa [copyLog, Phase.run, Phase.step] using ih

/-! ### The effect of the loop -/

theorem content_of_not_opens (w : World) (a : String) (h : opens w a = false) :
    content w a = [] := by
  unfold opens at h
  unfold content
  cases hf : w.file a with
  | ok c => simp [hf] at h
  | error e => rfl

theorem flatten_cstr_length_le (chunks : List (List Byte)) :
    ((chunks.map cstr).flatten).length ≤ chunks.flatten.length := by
  induction chunks with
  | nil => simp
  | cons c cs ih =>
    have := cstr_length_le c
    simp only [List.map_cons, List.flatten_cons, List.length_append]
    omega

theorem flatten_cstr_of_no_nul (chunks : List (List Byte))
    (h : ∀ b ∈ chunks.flatten, b ≠ 0) : (chunks.map cstr).flatten = chunks.flatten := by
  induction chunks with
  | nil => simp
  | cons c cs ih =>
    simp only [List.map_cons, List.flatten_cons]
    rw [cstr_of_no_nul c (fun b hb => h b (by simp [hb])),
      ih (fun b hb => h b (by
        simp only [List.flatten_cons, List.mem_append]
        exact Or.inr hb))]

theorem flatten_cstr_length_lt (chunks : List (List Byte))
    (h : (0 : Byte) ∈ chunks.flatten) :
    ((chunks.map cstr).flatten).length < chunks.flatten.length := by
  induction chunks with
  | nil => simp at h
  | cons c cs ih =>
    simp only [List.flatten_cons, List.mem_append] at h
    simp only [List.map_cons, List.flatten_cons, List.length_append]
    rcases h with h | h
    · have := cstr_length_lt c h
      have := flatten_cstr_length_le cs
      omega
    · have := cstr_length_le c
      have := ih h
      omega

theorem diagLoop_run (prog : String) (w : World) (hB : 2 ≤ w.BUFSIZ) (fuel : Nat) :
    ∀ (args : List String) (s : State), (∀ a ∈ args, (content w a).length < fuel) →
      ∃ t new out, diagLoop prog w fuel args s = some t ∧ LoopEffect w prog args s t new out := by
  intro args
  induction args with
  | nil =>
    intro s _
    refine ⟨s, [], [], rfl, ?_⟩
    constructor <;> simp [failing, concat, Phase.run, attempts, diagnostics, reads, catLines]
  | cons a rest ih =>
    intro s hfuel
    have hrest : ∀ x ∈ rest, (content w x).length < fuel :=
      fun x hx => hfuel x (List.mem_cons_of_mem _ hx)
    cases ho : opens w a with
    | false =>
      obtain ⟨t, new, out, hrun, he⟩ := ih (s.afterFail w prog a) hrest
      have hc := content_of_not_opens w a ho
      refine ⟨t, ⟨.fopen a none, s.handles⟩ :: ⟨.fprintf (diag w prog a), s.handles⟩ :: new,
        out, ?_, ?_⟩
      · rw [diagLoop_fail prog w fuel a rest s ho]
        exact hrun
      · constructor
        · exact he.stdin_eq
        · exact he.handles_eq
        · exact he.next_le
        · rw [he.stderr_eq]
          simp [State.afterFail, failing, ho, catLines, String.append_assoc]
        · rw [he.log_eq]
          simp [State.afterFail]
        · exact he.stdout_eq
        · intro st hst
          simp only [List.mem_cons] at hst
          rcases hst with h | h | h
          · subst h; exact Or.inl rfl
          · subst h; exact Or.inl rfl
          · exact he.snapshots st h
        · intro st hst p hp
          simp only [List.mem_cons] at hst
          rcases hst with h | h | h
          · subst h; rfl
          · subst h; rfl
          · exact he.failed_open st h p hp
        · intro st hst p hp
          simp only [List.mem_cons] at hst
          rcases hst with h | h | h
          · subst h; rfl
          · subst h; rfl
          · exact he.closed st h p hp
        · intro st hst p x hp
          simp only [List.mem_cons] at hst
          rcases hst with h | h | h
          · subst h; simp at hp
          · subst h; simp at hp
          · exact he.opened st h p x hp
        · simpa [Phase.run, Phase.step] using he.phases
        · have := he.attempts_eq
          simp only [attempts] at this
          simp [attempts, this]
        · have := he.diagnostics_eq
          simp only [diagnostics] at this
          simp [diagnostics, this, failing, ho]
        · intro fd hfd
          have := he.reads_old fd hfd
          simp only [reads] at this
          simp [reads, this]
        · simpa [concat, ho] using he.out_le
        · intro hz
          simpa [concat, ho] using he.out_clean (fun x hx => hz x (List.mem_cons_of_mem _ hx))
        · rintro ⟨x, hx, hz⟩
          rcases List.mem_cons.1 hx with h | h
          · subst h
            rw [hc] at hz
            simp at hz
          · simpa [concat, ho] using he.out_short ⟨x, h, hz⟩
    | true =>
      obtain ⟨chunks, hj, _, hstep⟩ :=
        diagLoop_ok w hB fuel a ho (hfuel a (List.mem_cons_self _ _))
      obtain ⟨t, new, out, hrun, he⟩ := ih (s.afterCopy a chunks) hrest
      refine ⟨t, ⟨.fopen a (some s.next), s.next :: s.handles⟩ ::
          (copyLog s.next (s.next :: s.handles) chunks ++ (⟨.fclose s.next, s.handles⟩ :: new)),
        (chunks.map cstr).flatten ++ out, ?_, ?_⟩
      · rw [hstep prog rest s]
        exact hrun
      · have hsnap := openAfter_copyLog s.next (s.next :: s.handles) chunks
        constructor
        · exact he.stdin_eq
        · exact he.handles_eq
        · have := he.next_le
          simp only [State.afterCopy] at this
          omega
        · rw [he.stderr_eq]
          simp [State.afterCopy, failing, ho]
        · rw [he.log_eq]
          simp [State.afterCopy]
        · rw [he.stdout_eq]
          simp [State.afterCopy]
        · intro st hst
          simp only [List.mem_cons, List.mem_append] at hst
          rcases hst with h | h | h | h
          · subst h; exact Or.inr ⟨s.next, rfl⟩
          · exact Or.inr ⟨s.next, (hsnap st h).1⟩
          · subst h; exact Or.inl rfl
          · exact he.snapshots st h
        · intro st hst p hp
          simp only [List.mem_cons, List.mem_append] at hst
          rcases hst with h | h | h | h
          · subst h; simp at hp
          · exact absurd hp ((hsnap st h).2.1 p none)
          · subst h; simp at hp
          · exact he.failed_open st h p hp
        · intro st hst p hp
          simp only [List.mem_cons, List.mem_append] at hst
          rcases hst with h | h | h | h
          · subst h; simp at hp
          · exact absurd hp ((hsnap st h).2.2 p)
          · subst h; rfl
          · exact he.closed st h p hp
        · intro st hst p x hp
          simp only [List.mem_cons, List.mem_append] at hst
          rcases hst with h | h | h | h
          · subst h
            simp only [Event.fopen.injEq, Option.some.injEq] at hp
            rw [← hp.2]
          · exact absurd hp ((hsnap st h).2.1 p (some x))
          · subst h; simp at hp
          · exact he.opened st h p x hp
        · simp only [List.map_cons, List.map_append, Phase.run, Phase.step]
          rw [Phase.run_append, Phase.run_copyLog]
          simpa [Phase.run, Phase.step] using he.phases
        · rw [attempts_cons, attempts_append, attempts_copyLog,
            attempts_cons ⟨.fclose s.next, s.handles⟩ new, he.attempts_eq]
          simp [attempts]
        · rw [diagnostics_cons, diagnostics_append, diagnostics_copyLog,
            diagnostics_cons ⟨.fclose s.next, s.handles⟩ new, he.diagnostics_eq]
          simp [diagnostics, failing, ho]
        · intro fd hfd
          have h1 := he.reads_old fd (by simp only [State.afterCopy]; omega)
          have h2 := reads_copyLog_ne fd s.next (s.next :: s.handles) chunks (by omega)
          rw [reads_cons, reads_append, h2, reads_cons fd ⟨.fclose s.next, s.handles⟩ new, h1]
          simp [reads]
        · have h1 := he.out_le
          have h2 := flatten_cstr_length_le chunks
          rw [hj] at h2
          simp only [concat, List.filter_cons, ho, if_true, List.map_cons, List.flatten_cons,
            List.length_append] at h1 ⊢
          omega
        · intro hz
          have h1 := he.out_clean (fun x hx => hz x (List.mem_cons_of_mem _ hx))
          have h2 := flatten_cstr_of_no_nul chunks (by
            rw [hj]; exact hz a (List.mem_cons_self _ _))
          rw [h1, h2, hj]
          simp [concat, ho]
        · rintro ⟨x, hx, hz⟩
          have h1 := he.out_le
          have h2 := flatten_cstr_length_le chunks
          rw [hj] at h2
          simp only [concat, List.filter_cons, ho, if_true, List.map_cons, List.flatten_cons,
            List.length_append] at h1 ⊢
          rcases List.mem_cons.1 hx with h | h
          · subst h
            have h3 := flatten_cstr_length_lt chunks (by rw [hj]; exact hz)
            rw [hj] at h3
            omega
          · have h3 := he.out_short ⟨x, h, hz⟩
            simp only [concat] at h3
            omega

/-! ## The two `main` functions -/

theorem cat_main_args (w : World) (fuel : Nat) (args : List String) (s : State)
    (h : args ≠ []) :
    Cat.main w fuel args s = (diagLoop "mycat" w fuel args s).map (fun t => ((0 : Int), t)) := by
  cases args with
  | nil => exact absurd rfl h
  | cons a rest =>
    simp only [Cat.main, List.length_cons, cat_loop_eq]
    rw [if_neg (by omega)]
    cases diagLoop "mycat" w fuel (a :: rest) s <;> rfl

theorem jcat_main_args (w : World) (fuel : Nat) (args : List String) (s : State)
    (h : args ≠ []) :
    Jcat.main w fuel args s =
      (diagLoop "jcat" w fuel (reached w args) s).map
        (fun t => ((if args.all (opens w) then 0 else 1 : Int), t)) := by
  cases args with
  | nil => exact absurd rfl h
  | cons a rest =>
    simp only [Jcat.main, List.length_cons, jcat_loop_eq]
    rw [if_neg (by omega)]
    cases diagLoop "jcat" w fuel (reached w (a :: rest)) s with
    | none => rfl
    | some t =>
      by_cases hall : (a :: rest).all (opens w) = true
      · simp [hall]
      · simp [hall]

theorem main_stdin (w : World) (hB : 2 ≤ w.BUFSIZ) (fuel : Nat) (s : State)
    (hfuel : s.stdin.unread.length < fuel) :
    ∃ chunks : List (List Byte),
      chunks.flatten = s.stdin.unread ∧
      (∀ c ∈ chunks, c ≠ [] ∧ c.length ≤ w.BUFSIZ - 1) ∧
      Cat.main w fuel [] s =
        some (0, { s.copied s.stdin.fd chunks with stdin := ⟨s.stdin.fd, []⟩ }) ∧
      Jcat.main w fuel [] s =
        some (0, { s.copied s.stdin.fd chunks with stdin := ⟨s.stdin.fd, []⟩ }) := by
  obtain ⟨chunks, hj, hp, hrun⟩ := cat_it_run w hB fuel s.stdin.unread hfuel
  refine ⟨chunks, hj, hp, ?_, ?_⟩
  · simp [Cat.main, hrun]
  · simp [Jcat.main, hrun]

theorem reached_fuel (w : World) (fuel : Nat) (args : List String)
    (h : ∀ a ∈ args, (content w a).length < fuel) :
    ∀ a ∈ reached w args, (content w a).length < fuel := by
  induction args with
  | nil => simp [reached]
  | cons a rest ih =>
    intro x hx
    by_cases ho : opens w a = true
    · simp only [reached, ho, if_true, List.mem_cons] at hx
      rcases hx with hx | hx
      · exact hx ▸ h a (List.mem_cons_self _ _)
      · exact ih (fun y hy => h y (List.mem_cons_of_mem _ hy)) x hx
    · simp only [reached, ho, if_false, Bool.false_eq_true, List.mem_singleton] at hx
      exact hx ▸ h a (List.mem_cons_self _ _)

theorem reached_subset (w : World) (args : List String) :
    ∀ a ∈ reached w args, a ∈ args := by
  induction args with
  | nil => simp [reached]
  | cons a rest ih =>
    intro x hx
    by_cases ho : opens w a = true
    · simp only [reached, ho, if_true, List.mem_cons] at hx
      rcases hx with hx | hx
      · exact hx ▸ List.mem_cons_self _ _
      · exact List.mem_cons_of_mem _ (ih x hx)
    · simp only [reached, ho, if_false, Bool.false_eq_true, List.mem_singleton] at hx
      exact hx ▸ List.mem_cons_self _ _

theorem reached_eq_take (w : World) (args : List String) :
    reached w args = args.take ((args.takeWhile (opens w)).length + 1) := by
  induction args with
  | nil => simp [reached]
  | cons a rest ih =>
    by_cases ho : opens w a = true
    · simp [reached, ho, List.takeWhile_cons, ih]
    · simp [reached, ho, List.takeWhile_cons]

theorem concat_reached (w : World) (args : List String) :
    concat w (reached w args) = ((args.takeWhile (opens w)).map (content w)).flatten := by
  induction args with
  | nil => simp [reached, concat]
  | cons a rest ih =>
    by_cases ho : opens w a = true
    · simp only [concat] at ih
      simp [reached, ho, List.takeWhile_cons, concat, ih]
    · simp [reached, ho, List.takeWhile_cons, concat]

theorem failing_reached (w : World) (args : List String) :
    failing w (reached w args) = (failing w args).take 1 := by
  induction args with
  | nil => simp [reached, failing]
  | cons a rest ih =>
    by_cases ho : opens w a = true
    · simp only [failing] at ih
      simp [reached, ho, failing, ih]
    · simp [reached, ho, failing]

/-- With `BUFSIZ ≥ 2` and enough fuel, `main` of `cat.c` on a non-empty
argument list returns 0 after a run of the loop over all arguments. -/
theorem cat_main_run (w : World) (hB : 2 ≤ w.BUFSIZ) (fuel : Nat) (args : List String)
    (s : State) (hne : args ≠ []) (hfuel : ∀ a ∈ args, (content w a).length < fuel) :
    ∃ t new out, Cat.main w fuel args s = some (0, t) ∧
      LoopEffect w "mycat" args s t new out := by
  obtain ⟨t, new, out, hrun, he⟩ := diagLoop_run "mycat" w hB fuel args s hfuel
  exact ⟨t, new, out, by rw [cat_main_args w fuel args s hne, hrun]; rfl, he⟩

/-- With `BUFSIZ ≥ 2` and enough fuel, `main` of `jcat.c` on a non-empty
argument list returns after a run of the loop over the arguments it reaches,
with 0 when all arguments open and 1 otherwise. -/
theorem jcat_main_run (w : World) (hB : 2 ≤ w.BUFSIZ) (fuel : Nat) (args : List String)
    (s : State) (hne : args ≠ []) (hfuel : ∀ a ∈ args, (content w a).length < fuel) :
    ∃ t new out,
      Jcat.main w fuel args s = some (if args.all (opens w) then 0 else 1, t) ∧
      LoopEffect w "jcat" (reached w args) s t new out := by
  obtain ⟨t, new, out, hrun, he⟩ :=
    diagLoop_run "jcat" w hB fuel (reached w args) s (reached_fuel w fuel args hfuel)
  exact ⟨t, new, out, by rw [jcat_main_args w fuel args s hne, hrun]; rfl, he⟩

theorem opens_of_file (w : World) (path : String) (B : List Byte)
    (h : w.file path = .ok B) : opens w path = true ∧ content w path = B := by
  simp [opens, content, h]

theorem LoopEffect.single_iff {w : World} {prog path : String} {B input : List Byte}
    {t : State} {new : List Step} {out : List Byte}
    (he : LoopEffect w prog [path] (State.init input) t new out)
    (h : w.file path = .ok B) : t.stdout = B ↔ (0 : Byte) ∉ B := by
  obtain ⟨ho, hc⟩ := opens_of_file w path B h
  have hcat : concat w [path] = B := by simp [concat, ho, hc]
  have hout : t.stdout = out := by rw [he.stdout_eq]; simp [State.init]
  constructor
  · intro heq hmem
    have := he.out_short ⟨path, List.mem_singleton.2 rfl, by rw [hc]; exact hmem⟩
    rw [hcat, ← hout, heq] at this
    exact Nat.lt_irrefl _ this
  · intro hno
    rw [hout, he.out_clean (by
      intro a ha b hb
      rw [List.mem_singleton.1 ha, hc] at hb
      intro h0
      exact hno (h0 ▸ hb)), hcat]

theorem catLines_take_one_length (w : World) (prog : String) (args : List String) :
    (((failing w args).take 1).map (diag w prog)).length
      = if args.all (opens w) then 0 else 1 := by
  induction args with
  | nil => simp [failing]
  | cons a rest ih =>
    by_cases ho : opens w a = true
    · simp only [failing] at ih
      simp only [failing, List.filter_cons, ho, Bool.not_true, List.all_cons, Bool.true_and]
      simpa using ih
    · simp [failing, ho]

theorem flatten_length_le_mul (chunks : List (List Byte)) (k : Nat)
    (h : ∀ c ∈ chunks, c.length ≤ k) : chunks.flatten.length ≤ chunks.length * k := by
  induction chunks with
  | nil => simp
  | cons c cs ih =>
    have h1 := h c (List.mem_cons_self _ _)
    have h2 := ih (fun x hx => h x (List.mem_cons_of_mem _ hx))
    simp only [List.flatten_cons, List.length_append, List.length_cons, Nat.add_mul, Nat.one_mul]
    omega

theorem length_le_flatten_length (chunks : List (List Byte))
    (h : ∀ c ∈ chunks, c ≠ []) : chunks.length ≤ chunks.flatten.length := by
  induction chunks with
  | nil => simp
  | cons c cs ih =>
    have h1 : 0 < c.length := List.length_pos.2 (h c (List.mem_cons_self _ _))
    have h2 := ih (fun x hx => h x (List.mem_cons_of_mem _ hx))
    simp only [List.flatten_cons, List.length_append, List.length_cons]
    omega

theorem diagLoop_all_open (p1 p2 : String) (w : World) (fuel : Nat) (args : List String)
    (s : State) (h : ∀ a ∈ args, opens w a = true) :
    diagLoop p1 w fuel args s = diagLoop p2 w fuel args s := by
  induction args generalizing s with
  | nil => rfl
  | cons a rest ih =>
    have ho := h a (List.mem_cons_self _ _)
    unfold opens at ho
    cases hf : w.file a with
    | error e => simp [hf] at ho
    | ok c =>
      simp only [diagLoop, fopen, hf]
      cases cat_it w fuel ⟨s.next, c⟩
          ({ s with handles := s.next :: s.handles, next := s.next + 1 }.record
            (.fopen a (some s.next))) with
      | none => rfl
      | some r => exact ih _ (fun x hx => h x (List.mem_cons_of_mem _ hx))

theorem reached_all_open (w : World) (args : List String)
    (h : ∀ a ∈ args, opens w a = true) : reached w args = args := by
  induction args with
  | nil => rfl
  | cons a rest ih =>
    simp [reached, h a (List.mem_cons_self _ _),
      ih (fun x hx => h x (List.mem_cons_of_mem _ hx))]

theorem failing_all_open (w : World) (args : List String)
    (h : ∀ a ∈ args, opens w a = true) : failing w args = [] := by
  simp only [failing, List.filter_eq_nil_iff]
  intro a ha
  simp [h a ha]

/-- What the strict loop writes to standard output is the beginning of what
the lenient loop writes, from the same state. -/
theorem diagLoop_prefix (w : World) (hB : 2 ≤ w.BUFSIZ) (fuel : Nat) :
    ∀ (args : List String) (s t1 t2 : State), (∀ a ∈ args, (content w a).length < fuel) →
      diagLoop "mycat" w fuel args s = some t1 →
      diagLoop "jcat" w fuel (reached w args) s = some t2 →
      t2.stdout <+: t1.stdout := by
  intro args
  induction args with
  | nil =>
    intro s t1 t2 _ h1 h2
    simp only [reached, diagLoop, Option.some.injEq] at h1 h2
    rw [← h1, ← h2]
  | cons a rest ih =>
    intro s t1 t2 hfuel h1 h2
    have hrest : ∀ x ∈ rest, (content w x).length < fuel :=
      fun x hx => hfuel x (List.mem_cons_of_mem _ hx)
    cases ho : opens w a with
    | false =>
      simp only [reached, ho, if_false, Bool.false_eq_true] at h2
      rw [diagLoop_fail "jcat" w fuel a [] s ho] at h2
      simp only [diagLoop, Option.some.injEq] at h2
      obtain ⟨t, new, out, hrun, he⟩ := diagLoop_run "mycat" w hB fuel (a :: rest) s hfuel
      rw [h1, Option.some.injEq] at hrun
      subst hrun
      rw [he.stdout_eq, ← h2]
      exact List.prefix_append _ _
    | true =>
      obtain ⟨chunks, _, _, hstep⟩ :=
        diagLoop_ok w hB fuel a ho (hfuel a (List.mem_cons_self _ _))
      simp only [reached, ho, if_true] at h2
      rw [hstep] at h1 h2
      exact ih _ t1 t2 hrest h1 h2

theorem newlines_append (a b : String) : newlines (a ++ b) = newlines a + newlines b := by
  simp [newlines, String.data_append]

theorem newlines_diag (w : World) (a : String) :
    newlines (diag w "jcat" a) = newlines (diag w "mycat" a) := by
  have h1 : newlines "jcat" = 0 := by decide
  have h2 : newlines "mycat" = 0 := by decide
  simp only [diag, newlines_append, h1, h2]

theorem content_lt_total (w : World) (args : List String) :
    ∀ a ∈ args, (content w a).length < (args.map (fun x => (content w x).length)).sum + 1 := by
  induction args with
  | nil => simp
  | cons x rest ih =>
    intro a ha
    simp only [List.map_cons, List.sum_cons]
    rcases List.mem_cons.1 ha with h | h
    · subst h; omega
    · have := ih a h
      omega

theorem fgets_eq (n : Nat) (hn : 2 ≤ n) (fp : FILE) :
    fgets n fp =
      if (getline (n - 1) fp.unread).1 = [] then (none, fp)
      else (some ((getline (n - 1) fp.unread).1 ++ [0]),
        { fp with unread := (getline (n - 1) fp.unread).2 }) := by
  have h0 : n ≠ 0 := by omega
  have h1 : n ≠ 1 := by omega
  simp [fgets, h0, h1]

theorem ceil_le_of_le_mul (n k d : Nat) (hd : 0 < d) (h : n ≤ k * d) :
    (n + (d - 1)) / d ≤ k := by
  have : (n + (d - 1)) / d < k + 1 := by
    rw [Nat.div_lt_iff_lt_mul hd, Nat.add_mul, Nat.one_mul]
    omega
  omega

/-! ## The claims -/

set_option maxRecDepth 8000

/-- C1, as stated, fails: the file `data.bin` holds `A\0B\nC\n`, it opens, and
both programs write only `AC\n` (each chunk is cut at its first zero byte) and
return 0. -/
theorem single_file_zero_byte_counterexample :
    demo.file "data.bin" = .ok [65, 0, 66, 10, 67, 10] ∧
    (Cat.main demo 10 ["data.bin"] (State.init [])).map (fun r => (r.1, r.2.stdout))
      = some (0, [65, 67, 10]) ∧
    (Jcat.main demo 10 ["data.bin"] (State.init [])).map (fun r => (r.1, r.2.stdout))
      = some (0, [65, 67, 10]) ∧
    ([65, 67, 10] : List Byte) ≠ [65, 0, 66, 10, 67, 10] :=
  ⟨rfl, by decide, by decide, by decide⟩

/-- C1 (amended): for a single path argument that opens with content `B`,
both `main` functions return 0, and the bytes written to standard output are
exactly `B` if and only if `B` contains no zero byte (bytes above 127 are
passed through unchanged). -/
theorem single_file_identity (w : World) (hB : 2 ≤ w.BUFSIZ) (path : String)
    (B : List Byte) (hopen : w.file path = .ok B) (fuel : Nat) (hfuel : B.length < fuel)
    (input : List Byte) :
    ∃ t1 t2,
      Cat.main w fuel [path] (State.init input) = some (0, t1) ∧
      Jcat.main w fuel [path] (State.init input) = some (0, t2) ∧
      (t1.stdout = B ↔ (0 : Byte) ∉ B) ∧
      (t2.stdout = B ↔ (0 : Byte) ∉ B) := by
  obtain ⟨ho, hc⟩ := opens_of_file w path B hopen
  have hf : ∀ a ∈ [path], (content w a).length < fuel := by
    intro a ha
    rw [List.mem_singleton.1 ha, hc]
    exact hfuel
  obtain ⟨t1, n1, o1, hr1, he1⟩ :=
    cat_main_run w hB fuel [path] (State.init input) (by simp) hf
  obtain ⟨t2, n2, o2, hr2, he2⟩ :=
    jcat_main_run w hB fuel [path] (State.init input) (by simp) hf
  have hreach : reached w [path] = [path] := by simp [reached, ho]
  rw [hreach] at he2
  refine ⟨t1, t2, hr1, ?_, he1.single_iff hopen, he2.single_iff hopen⟩
  rw [hr2]
  simp [ho]

/-- Witness for C1: the file `high.bin` of the demonstration file system, whose
bytes include 255, 128 and 200 and no zero. -/
theorem single_file_identity_witness :
    2 ≤ demo.BUFSIZ ∧ demo.file "high.bin" = .ok [255, 128, 10, 200, 1] ∧
    ∃ t1 t2,
      Cat.main demo 6 ["high.bin"] (State.init []) = some (0, t1) ∧
      Jcat.main demo 6 ["high.bin"] (State.init []) = some (0, t2) ∧
      (t1.stdout = [255, 128, 10, 200, 1] ↔ (0 : Byte) ∉ [255, 128, 10, 200, 1]) ∧
      (t2.stdout = [255, 128, 10, 200, 1] ↔ (0 : Byte) ∉ [255, 128, 10, 200, 1]) :=
  ⟨by decide, rfl,
    single_file_identity demo (by decide) "high.bin" [255, 128, 10, 200, 1] rfl 6
      (by decide) []⟩

/-- C2: for a non-empty argument list whose files contain no zero byte,
`main` of `cat.c` returns 0 whatever number of opens fail, and standard output
is the concatenation, in argument order, of the contents of exactly the
arguments that open. -/
theorem lenient_concatenates (w : World) (hB : 2 ≤ w.BUFSIZ) (args : List String)
    (hne : args ≠ []) (fuel : Nat) (hfuel : ∀ a ∈ args, (content w a).length < fuel)
    (hclean : ∀ a ∈ args, ∀ b ∈ content w a, b ≠ 0) (input : List Byte) :
    ∃ t, Cat.main w fuel args (State.init input) = some (0, t) ∧
      t.stdout = ((args.filter (opens w)).map (content w)).flatten := by
  obtain ⟨t, new, out, hrun, he⟩ := cat_main_run w hB fuel args (State.init input) hne hfuel
  refine ⟨t, hrun, ?_⟩
  rw [he.stdout_eq, he.out_clean hclean]
  simp [State.init, concat]

/-- Witness for C2: the files `"ab"`, `"cd"`, `"ef"` give `"abcdef"`; and with
`[exists.txt, missing.txt, exists2.txt]` the two files that exist are
copied. -/
theorem lenient_concatenates_witness :
    (2 ≤ demo.BUFSIZ ∧ ["a.txt", "b.txt", "c.txt"] ≠ [] ∧
      (∀ a ∈ ["a.txt", "b.txt", "c.txt"], (content demo a).length < 3) ∧
      (∀ a ∈ ["a.txt", "b.txt", "c.txt"], ∀ b ∈ content demo a, b ≠ 0) ∧
      ((["a.txt", "b.txt", "c.txt"].filter (opens demo)).map (content demo)).flatten
        = [97, 98, 99, 100, 101, 102] ∧
      ∃ t, Cat.main demo 3 ["a.txt", "b.txt", "c.txt"] (State.init []) = some (0, t) ∧
        t.stdout
          = ((["a.txt", "b.txt", "c.txt"].filter (opens demo)).map (content demo)).flatten) ∧
    (["exists.txt", "missing.txt", "exists2.txt"] ≠ [] ∧
      (∀ a ∈ ["exists.txt", "missing.txt", "exists2.txt"], (content demo a).length < 5) ∧
      (∀ a ∈ ["exists.txt", "missing.txt", "exists2.txt"], ∀ b ∈ content demo a, b ≠ 0) ∧
      ((["exists.txt", "missing.txt", "exists2.txt"].filter (opens demo)).map
        (content demo)).flatten = content demo "exists.txt" ++ content demo "exists2.txt" ∧
      ∃ t, Cat.main demo 5 ["exists.txt", "missing.txt", "exists2.txt"] (State.init [])
          = some (0, t) ∧
        t.stdout = ((["exists.txt", "missing.txt", "exists2.txt"].filter (opens demo)).map
          (content demo)).flatten) :=
  ⟨⟨by decide, by decide, by decide, by decide, by decide,
      lenient_concatenates demo (by decide) ["a.txt", "b.txt", "c.txt"] (by decide) 3
        (by decide) (by decide) []⟩,
    ⟨by decide, by decide, by decide, by decide,
      lenient_concatenates demo (by decide) ["exists.txt", "missing.txt", "exists2.txt"]
        (by decide) 5 (by decide) (by decide) []⟩⟩

/-- C3: for a non-empty argument list whose files contain no zero byte,
`main` of `jcat.c` writes to standard output the concatenation, in argument
order, of the contents of the arguments before the first one that fails to
open (of all of them when none fails), and the paths it passes to `fopen` are
those arguments and the failing one: no later argument is opened. -/
theorem strict_stops_at_first_failure (w : World) (hB : 2 ≤ w.BUFSIZ) (args : List String)
    (hne : args ≠ []) (fuel : Nat) (hfuel : ∀ a ∈ args, (content w a).length < fuel)
    (hclean : ∀ a ∈ args, ∀ b ∈ content w a, b ≠ 0) (input : List Byte) :
    ∃ code t, Jcat.main w fuel args (State.init input) = some (code, t) ∧
      t.stdout = ((args.takeWhile (opens w)).map (content w)).flatten ∧
      attempts t.log = args.take ((args.takeWhile (opens w)).length + 1) := by
  obtain ⟨t, new, out, hrun, he⟩ := jcat_main_run w hB fuel args (State.init input) hne hfuel
  refine ⟨_, t, hrun, ?_, ?_⟩
  · rw [he.stdout_eq, he.out_clean (fun a ha => hclean a (reached_subset w args a ha)),
      concat_reached]
    simp [State.init]
  · rw [he.log_eq, ← reached_eq_take, ← he.attempts_eq]
    simp [State.init]

/-- Witness for C3: with `[exists.txt, missing.txt, exists2.txt]` only
`exists.txt` is copied and `exists2.txt` is never opened. -/
theorem strict_stops_at_first_failure_witness :
    2 ≤ demo.BUFSIZ ∧ ["exists.txt", "missing.txt", "exists2.txt"] ≠ [] ∧
    (∀ a ∈ ["exists.txt", "missing.txt", "exists2.txt"], (content demo a).length < 5) ∧
    (∀ a ∈ ["exists.txt", "missing.txt", "exists2.txt"], ∀ b ∈ content demo a, b ≠ 0) ∧
    ((["exists.txt", "missing.txt", "exists2.txt"].takeWhile (opens demo)).map
      (content demo)).flatten = content demo "exists.txt" ∧
    ["exists.txt", "missing.txt", "exists2.txt"].take
      ((["exists.txt", "missing.txt", "exists2.txt"].takeWhile (opens demo)).length + 1)
      = ["exists.txt", "missing.txt"] ∧
    ∃ code t,
      Jcat.main demo 5 ["exists.txt", "missing.txt", "exists2.txt"] (State.init [])
        = some (code, t) ∧
      t.stdout = ((["exists.txt", "missing.txt", "exists2.txt"].takeWhile (opens demo)).map
        (content demo)).flatten ∧
      attempts t.log = ["exists.txt", "missing.txt", "exists2.txt"].take
        ((["exists.txt", "missing.txt", "exists2.txt"].takeWhile (opens demo)).length + 1) :=
  ⟨by decide, by decide, by decide, by decide, by decide, by decide,
    strict_stops_at_first_failure demo (by decide)
      ["exists.txt", "missing.txt", "exists2.txt"] (by decide) 5 (by decide) (by decide) []⟩

/-- C4: `main` of `jcat.c` returns 1 if and only if the argument list is
non-empty and some argument fails to open, returns 0 otherwise, and never
returns anything else. -/
theorem strict_exit_code (w : World) (hB : 2 ≤ w.BUFSIZ) (args : List String)
    (input : List Byte) (fuel : Nat) (hin : args = [] → input.length < fuel)
    (hfuel : ∀ a ∈ args, (content w a).length < fuel) :
    ∃ code t, Jcat.main w fuel args (State.init input) = some (code, t) ∧
      (code = 1 ↔ args ≠ [] ∧ ∃ a ∈ args, opens w a = false) ∧
      (¬ (args ≠ [] ∧ ∃ a ∈ args, opens w a = false) → code = 0) ∧
      (code = 0 ∨ code = 1) := by
  by_cases hne : args = []
  · subst hne
    obtain ⟨chunks, _, _, _, hrun⟩ := main_stdin w hB fuel (State.init input) (hin rfl)
    exact ⟨0, _, hrun, by simp, by simp, Or.inl rfl⟩
  · obtain ⟨t, new, out, hrun, _⟩ := jcat_main_run w hB fuel args (State.init input) hne hfuel
    refine ⟨_, t, hrun, ?_, ?_, ?_⟩
    · by_cases hall : args.all (opens w) = true
      · simp only [hall, if_true]
        simp only [List.all_eq_true] at hall
        constructor
        · intro h
          exact absurd h (by decide)
        · rintro ⟨_, a, ha, hf⟩
          rw [hall a ha] at hf
          exact absurd hf (by decide)
      · simp only [hall, if_false]
        simp only [List.all_eq_true, not_forall] at hall
        obtain ⟨a, ha, hf⟩ := hall
        exact ⟨fun _ => ⟨hne, a, ha, by simpa using hf⟩, fun _ => rfl⟩
    · intro hno
      by_cases hall : args.all (opens w) = true
      · simp [hall]
      · exfalso
        apply hno
        simp only [List.all_eq_true, not_forall] at hall
        obtain ⟨a, ha, hf⟩ := hall
        exact ⟨hne, a, ha, by simpa using hf⟩
    · by_cases hall : args.all (opens w) = true
      · simp [hall]
      · simp [hall]

/-- Witness for C4: the second of three arguments is missing. -/
theorem strict_exit_code_witness :
    2 ≤ demo.BUFSIZ ∧
    (["exists.txt", "missing.txt", "exists2.txt"] = [] → ([] : List Byte).length < 5) ∧
    (∀ a ∈ ["exists.txt", "missing.txt", "exists2.txt"], (content demo a).length < 5) ∧
    ∃ code t,
      Jcat.main demo 5 ["exists.txt", "missing.txt", "exists2.txt"] (State.init [])
        = some (code, t) ∧
      (code = 1 ↔ ["exists.txt", "missing.txt", "exists2.txt"] ≠ [] ∧
        ∃ a ∈ ["exists.txt", "missing.txt", "exists2.txt"], opens demo a = false) ∧
      (¬ (["exists.txt", "missing.txt", "exists2.txt"] ≠ [] ∧
        ∃ a ∈ ["exists.txt", "missing.txt", "exists2.txt"], opens demo a = false) → code = 0) ∧
      (code = 0 ∨ code = 1) :=
  ⟨by decide, by decide, by decide,
    strict_exit_code demo (by decide) ["exists.txt", "missing.txt", "exists2.txt"] [] 5
      (by decide) (by decide)⟩

/-- C5: standard error is the diagnostic lines `<prog>: <path>: <reason>\n`
of the failed opens, in argument order, with `<prog>` `mycat` for `cat.c` and
`jcat` for `jcat.c`, and each line is one `fprintf` call: `cat.c` writes one
line for every argument that fails to open, `jcat.c` writes the line of the
first such argument only, so one line when some argument fails to open and
none otherwise. -/
theorem diagnostic_lines (w : World) (hB : 2 ≤ w.BUFSIZ) (args : List String)
    (input : List Byte) (fuel : Nat) (hin : args = [] → input.length < fuel)
    (hfuel : ∀ a ∈ args, (content w a).length < fuel) :
    ∃ c1 t1 c2 t2,
      Cat.main w fuel args (State.init input) = some (c1, t1) ∧
      Jcat.main w fuel args (State.init input) = some (c2, t2) ∧
      t1.stderr = catLines ((failing w args).map
        (fun a => "mycat: " ++ a ++ ": " ++ reason w a ++ "\n")) ∧
      diagnostics t1.log = (failing w args).map
        (fun a => "mycat: " ++ a ++ ": " ++ reason w a ++ "\n") ∧
      (diagnostics t1.log).length = (args.filter (fun a => !opens w a)).length ∧
      t2.stderr = catLines (((failing w args).take 1).map
        (fun a => "jcat: " ++ a ++ ": " ++ reason w a ++ "\n")) ∧
      diagnostics t2.log = ((failing w args).take 1).map
        (fun a => "jcat: " ++ a ++ ": " ++ reason w a ++ "\n") ∧
      (diagnostics t2.log).length = if args.all (opens w) then 0 else 1 := by
  by_cases hne : args = []
  · subst hne
    obtain ⟨chunks, _, _, h1, h2⟩ := main_stdin w hB fuel (State.init input) (hin rfl)
    refine ⟨_, _, _, _, h1, h2, ?_⟩
    simp [State.copied, State.init, failing, catLines, diagnostics_copyLog]
  · obtain ⟨t1, n1, o1, hr1, he1⟩ := cat_main_run w hB fuel args (State.init input) hne hfuel
    obtain ⟨t2, n2, o2, hr2, he2⟩ := jcat_main_run w hB fuel args (State.init input) hne hfuel
    have hl1 : t1.log = n1 := by rw [he1.log_eq]; simp [State.init]
    have hl2 : t2.log = n2 := by rw [he2.log_eq]; simp [State.init]
    have hd2 := he2.diagnostics_eq
    rw [failing_reached] at hd2
    have hm : diag w "mycat" = fun a => "mycat: " ++ a ++ ": " ++ reason w a ++ "\n" := by
      funext a
      simp [diag]
    have hj : diag w "jcat" = fun a => "jcat: " ++ a ++ ": " ++ reason w a ++ "\n" := by
      funext a
      simp [diag]
    refine ⟨_, t1, _, t2, hr1, hr2, ?_, ?_, ?_, ?_, ?_, ?_⟩
    · rw [he1.stderr_eq, hm]
      simp [State.init]
    · rw [hl1, he1.diagnostics_eq, hm]
    · rw [hl1, he1.diagnostics_eq]
      simp [failing]
    · rw [he2.stderr_eq, failing_reached, hj]
      simp [State.init]
    · rw [hl2, hd2, hj]
    · rw [hl2, hd2]
      exact catLines_take_one_length w "jcat" args

/-- Witness for C5: two of four arguments are missing. -/
theorem diagnostic_lines_witness :
    2 ≤ demo.BUFSIZ ∧
    (["nope", "a.txt", "missing.txt", "b.txt"] = [] → ([] : List Byte).length < 3) ∧
    (∀ a ∈ ["nope", "a.txt", "missing.txt", "b.txt"], (content demo a).length < 3) ∧
    catLines ((failing demo ["nope", "a.txt", "missing.txt", "b.txt"]).map
        (fun a => "mycat: " ++ a ++ ": " ++ reason demo a ++ "\n"))
      = "mycat: nope: No such file or directory\nmycat: missing.txt: No such file or directory\n" ∧
    catLines (((failing demo ["nope", "a.txt", "missing.txt", "b.txt"]).take 1).map
        (fun a => "jcat: " ++ a ++ ": " ++ reason demo a ++ "\n"))
      = "jcat: nope: No such file or directory\n" ∧
    ∃ c1 t1 c2 t2,
      Cat.main demo 3 ["nope", "a.txt", "missing.txt", "b.txt"] (State.init [])
        = some (c1, t1) ∧
      Jcat.main demo 3 ["nope", "a.txt", "missing.txt", "b.txt"] (State.init [])
        = some (c2, t2) ∧
      t1.stderr = catLines ((failing demo ["nope", "a.txt", "missing.txt", "b.txt"]).map
        (fun a => "mycat: " ++ a ++ ": " ++ reason demo a ++ "\n")) ∧
      diagnostics t1.log = (failing demo ["nope", "a.txt", "missing.txt", "b.txt"]).map
        (fun a => "mycat: " ++ a ++ ": " ++ reason demo a ++ "\n") ∧
      (diagnostics t1.log).length
        = (["nope", "a.txt", "missing.txt", "b.txt"].filter (fun a => !opens demo a)).length ∧
      t2.stderr = catLines (((failing demo ["nope", "a.txt", "missing.txt", "b.txt"]).take 1).map
        (fun a => "jcat: " ++ a ++ ": " ++ reason demo a ++ "\n")) ∧
      diagnostics t2.log = ((failing demo ["nope", "a.txt", "missing.txt", "b.txt"]).take 1).map
        (fun a => "jcat: " ++ a ++ ": " ++ reason demo a ++ "\n") ∧
      (diagnostics t2.log).length
        = if ["nope", "a.txt", "missing.txt", "b.txt"].all (opens demo) then 0 else 1 :=
  ⟨by decide, by decide, by decide, by decide, by decide,
    diagnostic_lines demo (by decide) ["nope", "a.txt", "missing.txt", "b.txt"] [] 3
      (by decide) (by decide)⟩

/-- C6: with no argument both `main` functions copy standard input: they
return 0, read standard input to its end, write nothing to standard error and
open no file, and standard output is exactly the input when it holds no zero
byte; with one or more arguments standard input is left unread, whether or
not the arguments open. -/
theorem stdin_iff_no_arguments (w : World) (hB : 2 ≤ w.BUFSIZ) (args : List String)
    (S : List Byte) (fuel : Nat) (hin : args = [] → S.length < fuel)
    (hfuel : ∀ a ∈ args, (content w a).length < fuel) :
    ∃ c1 t1 c2 t2,
      Cat.main w fuel args (State.init S) = some (c1, t1) ∧
      Jcat.main w fuel args (State.init S) = some (c2, t2) ∧
      (args = [] →
        c1 = 0 ∧ c2 = 0 ∧
        ((∀ b ∈ S, b ≠ 0) → t1.stdout = S ∧ t2.stdout = S) ∧
        t1.stderr = "" ∧ t2.stderr = "" ∧
        attempts t1.log = [] ∧ attempts t2.log = [] ∧
        t1.stdin.unread = [] ∧ t2.stdin.unread = [] ∧
        reads 0 t1.log ≠ [] ∧ reads 0 t2.log ≠ []) ∧
      (args ≠ [] →
        t1.stdin = ⟨0, S⟩ ∧ t2.stdin = ⟨0, S⟩ ∧
        reads 0 t1.log = [] ∧ reads 0 t2.log = []) := by
  by_cases hne : args = []
  · subst hne
    obtain ⟨chunks, hj, _, h1, h2⟩ := main_stdin w hB fuel (State.init S) (hin rfl)
    refine ⟨_, _, _, _, h1, h2, ?_, fun h => absurd rfl h⟩
    intro _
    have hj2 : chunks.flatten = S := hj
    refine ⟨rfl, rfl, ?_, ?_⟩
    · intro hclean
      have := flatten_cstr_of_no_nul chunks (by rw [hj2]; exact hclean)
      simp [State.copied, State.init, this, hj2]
    · simp [State.copied, State.init, attempts_copyLog, reads_copyLog_self]
  · obtain ⟨t1, n1, o1, hr1, he1⟩ := cat_main_run w hB fuel args (State.init S) hne hfuel
    obtain ⟨t2, n2, o2, hr2, he2⟩ := jcat_main_run w hB fuel args (State.init S) hne hfuel
    have hl1 : t1.log = n1 := by rw [he1.log_eq]; simp [State.init]
    have hl2 : t2.log = n2 := by rw [he2.log_eq]; simp [State.init]
    refine ⟨_, t1, _, t2, hr1, hr2, fun h => absurd h hne, fun _ => ⟨?_, ?_, ?_, ?_⟩⟩
    · rw [he1.stdin_eq]; rfl
    · rw [he2.stdin_eq]; rfl
    · rw [hl1]; exact he1.reads_old 0 (by simp [State.init])
    · rw [hl2]; exact he2.reads_old 0 (by simp [State.init])

/-- Witness for C6: no argument and `"hello\n"` on standard input; and a
missing file as the only argument, with the same standard input. -/
theorem stdin_iff_no_arguments_witness :
    (2 ≤ demo.BUFSIZ ∧
      (([] : List String) = [] → ([104, 101, 108, 108, 111, 10] : List Byte).length < 7) ∧
      (∀ a ∈ ([] : List String), (content demo a).length < 7) ∧
      (∀ b ∈ ([104, 101, 108, 108, 111, 10] : List Byte), b ≠ 0) ∧
      ∃ c1 t1 c2 t2,
        Cat.main demo 7 [] (State.init [104, 101, 108, 108, 111, 10]) = some (c1, t1) ∧
        Jcat.main demo 7 [] (State.init [104, 101, 108, 108, 111, 10]) = some (c2, t2) ∧
        (([] : List String) = [] →
          c1 = 0 ∧ c2 = 0 ∧
          ((∀ b ∈ ([104, 101, 108, 108, 111, 10] : List Byte), b ≠ 0) →
            t1.stdout = [104, 101, 108, 108, 111, 10] ∧
            t2.stdout = [104, 101, 108, 108, 111, 10]) ∧
          t1.stderr = "" ∧ t2.stderr = "" ∧
          attempts t1.log = [] ∧ attempts t2.log = [] ∧
          t1.stdin.unread = [] ∧ t2.stdin.unread = [] ∧
          reads 0 t1.log ≠ [] ∧ reads 0 t2.log ≠ []) ∧
        (([] : List String) ≠ [] →
          t1.stdin = ⟨0, [104, 101, 108, 108, 111, 10]⟩ ∧
          t2.stdin = ⟨0, [104, 101, 108, 108, 111, 10]⟩ ∧
          reads 0 t1.log = [] ∧ reads 0 t2.log = [])) ∧
    ((["missing.txt"] = [] → ([104, 101, 108, 108, 111, 10] : List Byte).length < 1) ∧
      (∀ a ∈ ["missing.txt"], (content demo a).length < 1) ∧
      ["missing.txt"] ≠ [] ∧
      ∃ c1 t1 c2 t2,
        Cat.main demo 1 ["missing.txt"] (State.init [104, 101, 108, 108, 111, 10])
          = some (c1, t1) ∧
        Jcat.main demo 1 ["missing.txt"] (State.init [104, 101, 108, 108, 111, 10])
          = some (c2, t2) ∧
        (["missing.txt"] = [] →
          c1 = 0 ∧ c2 = 0 ∧
          ((∀ b ∈ ([104, 101, 108, 108, 111, 10] : List Byte), b ≠ 0) →
            t1.stdout = [104, 101, 108, 108, 111, 10] ∧
            t2.stdout = [104, 101, 108, 108, 111, 10]) ∧
          t1.stderr = "" ∧ t2.stderr = "" ∧
          attempts t1.log = [] ∧ attempts t2.log = [] ∧
          t1.stdin.unread = [] ∧ t2.stdin.unread = [] ∧
          reads 0 t1.log ≠ [] ∧ reads 0 t2.log ≠ []) ∧
        (["missing.txt"] ≠ [] →
          t1.stdin = ⟨0, [104, 101, 108, 108, 111, 10]⟩ ∧
          t2.stdin = ⟨0, [104, 101, 108, 108, 111, 10]⟩ ∧
          reads 0 t1.log = [] ∧ reads 0 t2.log = [])) :=
  ⟨⟨by decide, by decide, by decide, by decide,
      stdin_iff_no_arguments demo (by decide) [] [104, 101, 108, 108, 111, 10] 7
        (by decide) (by decide)⟩,
    ⟨by decide, by decide, by decide,
      stdin_iff_no_arguments demo (by decide) ["missing.txt"]
        [104, 101, 108, 108, 111, 10] 1 (by decide) (by decide)⟩⟩

/-- C7: a source without zero bytes that is longer than `BUFSIZ` is copied by
`cat_it` in two or more `fgets`/`fputs` cycles, and the chunks written, taken
in order, are the whole content: standard output grows by exactly the
content. -/
theorem large_source_copied (w : World) (hB : 2 ≤ w.BUFSIZ) (u : List Byte)
    (hclean : ∀ b ∈ u, b ≠ 0) (hbig : w.BUFSIZ < u.length) (fd : Nat) (s : State)
    (fuel : Nat) (hfuel : u.length < fuel) :
    ∃ t new, cat_it w fuel ⟨fd, u⟩ s = some (⟨fd, []⟩, t) ∧
      t.log = s.log ++ new ∧
      2 ≤ (written new).length ∧
      (reads fd new).length = (written new).length + 1 ∧
      (written new).flatten = u ∧
      t.stdout = s.stdout ++ u := by
  obtain ⟨chunks, hj, hp, hrun⟩ := cat_it_run w hB fuel u hfuel
  have hc := flatten_cstr_of_no_nul chunks (by rw [hj]; exact hclean)
  have hlen := flatten_length_le_mul chunks (w.BUFSIZ - 1) (fun c hc => (hp c hc).2)
  rw [hj] at hlen hc
  refine ⟨_, copyLog fd s.handles chunks, hrun fd s, rfl, ?_, ?_, ?_, ?_⟩
  · rw [written_copyLog, List.length_map]
    by_contra hlt
    have h1 : chunks.length ≤ 1 := by omega
    have h2 : chunks.length * (w.BUFSIZ - 1) ≤ 1 * (w.BUFSIZ - 1) :=
      Nat.mul_le_mul_right _ h1
    omega
  · simp [written_copyLog, reads_copyLog_self]
  · rw [written_copyLog, hc]
  · simp [State.copied, hc]

/-- Witness for C7: a single line of 300 bytes and no final newline, with
`BUFSIZ` 256. -/
theorem large_source_copied_witness :
    2 ≤ small.BUFSIZ ∧ (∀ b ∈ List.replicate 300 (65 : Byte), b ≠ 0) ∧
    small.BUFSIZ < (List.replicate 300 (65 : Byte)).length ∧
    (List.replicate 300 (65 : Byte)).length < 301 ∧
    ∃ t new, cat_it small 301 ⟨3, List.replicate 300 65⟩ (State.init []) = some (⟨3, []⟩, t) ∧
      t.log = (State.init []).log ++ new ∧
      2 ≤ (written new).length ∧
      (reads 3 new).length = (written new).length + 1 ∧
      (written new).flatten = List.replicate 300 65 ∧
      t.stdout = (State.init []).stdout ++ List.replicate 300 65 :=
  ⟨by decide, by simp, by simp [small], by simp,
    large_source_copied small (by decide) (List.replicate 300 65) (by simp) (by simp [small])
      3 (State.init []) 301 (by simp)⟩

/-- C8: in both programs the handles open after every library call number at
most one, none is open after a failed `fopen` or after an `fclose`, none is
open when `main` returns (with 0 or with 1), and with arguments the calls
follow the cycle open, copy to end of file, close (or failed open,
diagnostic) with nothing in between; without arguments no file is opened. -/
theorem handle_discipline (w : World) (hB : 2 ≤ w.BUFSIZ) (args : List String)
    (input : List Byte) (fuel : Nat) (hin : args = [] → input.length < fuel)
    (hfuel : ∀ a ∈ args, (content w a).length < fuel) :
    ∃ c1 t1 c2 t2,
      Cat.main w fuel args (State.init input) = some (c1, t1) ∧
      Jcat.main w fuel args (State.init input) = some (c2, t2) ∧
      (t1.handles = [] ∧ t2.handles = []) ∧
      (∀ st, st ∈ t1.log ∨ st ∈ t2.log →
        st.openAfter.length ≤ 1 ∧
        (∀ p, st.ev = .fopen p none → st.openAfter = []) ∧
        (∀ p h, st.ev = .fopen p (some h) → st.openAfter = [h]) ∧
        (∀ h, st.ev = .fclose h → st.openAfter = [])) ∧
      (args ≠ [] →
        Phase.idle.run (t1.log.map Step.ev) = some .idle ∧
        Phase.idle.run (t2.log.map Step.ev) = some .idle) ∧
      (args = [] → attempts t1.log = [] ∧ attempts t2.log = []) := by
  by_cases hne : args = []
  · subst hne
    obtain ⟨chunks, _, _, h1, h2⟩ := main_stdin w hB fuel (State.init input) (hin rfl)
    refine ⟨_, _, _, _, h1, h2, ⟨rfl, rfl⟩, ?_, fun h => absurd rfl h, ?_⟩
    · intro st hst
      have hst1 : st ∈ copyLog 0 [] chunks := by
        simpa [State.copied, State.init] using hst
      obtain ⟨ho, hno, hnc⟩ := openAfter_copyLog 0 [] chunks st hst1
      exact ⟨by simp [ho], fun _ _ => ho, fun p h hp => absurd hp (hno p (some h)),
        fun _ _ => ho⟩
    · intro _
      simp [State.copied, State.init, attempts_copyLog]
  · obtain ⟨t1, n1, o1, hr1, he1⟩ := cat_main_run w hB fuel args (State.init input) hne hfuel
    obtain ⟨t2, n2, o2, hr2, he2⟩ := jcat_main_run w hB fuel args (State.init input) hne hfuel
    have hl1 : t1.log = n1 := by rw [he1.log_eq]; simp [State.init]
    have hl2 : t2.log = n2 := by rw [he2.log_eq]; simp [State.init]
    refine ⟨_, t1, _, t2, hr1, hr2, ⟨?_, ?_⟩, ?_, fun _ => ⟨?_, ?_⟩, fun h => absurd h hne⟩
    · rw [he1.handles_eq]; rfl
    · rw [he2.handles_eq]; rfl
    · intro st hst
      rw [hl1, hl2] at hst
      have key : (st.openAfter = [] ∨ ∃ h, st.openAfter = [h]) ∧
          (∀ p, st.ev = .fopen p none → st.openAfter = []) ∧
          (∀ p h, st.ev = .fopen p (some h) → st.openAfter = [h]) ∧
          (∀ h, st.ev = .fclose h → st.openAfter = []) := by
        rcases hst with h | h
        · exact ⟨he1.snapshots st h, he1.failed_open st h, he1.opened st h, he1.closed st h⟩
        · exact ⟨he2.snapshots st h, he2.failed_open st h, he2.opened st h, he2.closed st h⟩
      refine ⟨?_, key.2⟩
      rcases key.1 with h | ⟨x, h⟩ <;> simp [h]
    · rw [hl1]; exact he1.phases
    · rw [hl2]; exact he2.phases

/-- Witness for C8: three arguments, the second missing. -/
theorem handle_discipline_witness :
    2 ≤ demo.BUFSIZ ∧
    (["exists.txt", "missing.txt", "exists2.txt"] = [] → ([] : List Byte).length < 5) ∧
    (∀ a ∈ ["exists.txt", "missing.txt", "exists2.txt"], (content demo a).length < 5) ∧
    ∃ c1 t1 c2 t2,
      Cat.main demo 5 ["exists.txt", "missing.txt", "exists2.txt"] (State.init [])
        = some (c1, t1) ∧
      Jcat.main demo 5 ["exists.txt", "missing.txt", "exists2.txt"] (State.init [])
        = some (c2, t2) ∧
      (t1.handles = [] ∧ t2.handles = []) ∧
      (∀ st, st ∈ t1.log ∨ st ∈ t2.log →
        st.openAfter.length ≤ 1 ∧
        (∀ p, st.ev = .fopen p none → st.openAfter = []) ∧
        (∀ p h, st.ev = .fopen p (some h) → st.openAfter = [h]) ∧
        (∀ h, st.ev = .fclose h → st.openAfter = [])) ∧
      (["exists.txt", "missing.txt", "exists2.txt"] ≠ [] →
        Phase.idle.run (t1.log.map Step.ev) = some .idle ∧
        Phase.idle.run (t2.log.map Step.ev) = some .idle) ∧
      (["exists.txt", "missing.txt", "exists2.txt"] = [] →
        attempts t1.log = [] ∧ attempts t2.log = []) :=
  ⟨by decide, by decide, by decide,
    handle_discipline demo (by decide) ["exists.txt", "missing.txt", "exists2.txt"] [] 5
      (by decide) (by decide)⟩

/-- C9: with `BUFSIZ ≥ 2`, `fgets` returns NULL exactly when no input remains;
a successful call takes between 1 and `BUFSIZ - 1` bytes off the front of the
input, with no newline before the last byte taken, and ends with a newline
whenever it takes fewer than `BUFSIZ - 1` bytes and input remains.  Hence
`cat_it` on a source of `n` bytes ends within `n + 1` calls of `fgets`, after
at most `n` and at least `⌈n / (BUFSIZ - 1)⌉` cycles, and both `main`
functions return for every argument list and input once the fuel is large
enough. -/
theorem copy_loop_terminates (w : World) (hB : 2 ≤ w.BUFSIZ) (fp : FILE) (s : State)
    (args : List String) (input : List Byte) :
    ((fgets w.BUFSIZ fp).1 = none ↔ fp.unread = []) ∧
    (∀ buf, (fgets w.BUFSIZ fp).1 = some buf →
      ∃ c, buf = c ++ [0] ∧ c ++ (fgets w.BUFSIZ fp).2.unread = fp.unread ∧
        1 ≤ c.length ∧ c.length ≤ w.BUFSIZ - 1 ∧
        (∀ b ∈ c.dropLast, b ≠ 10) ∧
        (c.length < w.BUFSIZ - 1 → (fgets w.BUFSIZ fp).2.unread ≠ [] →
          c.getLast? = some 10)) ∧
    (∀ fuel, fp.unread.length < fuel →
      ∃ t new, cat_it w fuel fp s = some (⟨fp.fd, []⟩, t) ∧ t.log = s.log ++ new ∧
        (reads fp.fd new).length = (written new).length + 1 ∧
        (written new).length ≤ fp.unread.length ∧
        (fp.unread.length + (w.BUFSIZ - 2)) / (w.BUFSIZ - 1) ≤ (written new).length) ∧
    (∃ fuel0, ∀ fuel, fuel0 ≤ fuel →
      (Cat.main w fuel args (State.init input)).isSome = true ∧
      (Jcat.main w fuel args (State.init input)).isSome = true) := by
  refine ⟨?_, ?_, ?_, ?_⟩
  · rw [fgets_eq _ hB]
    by_cases hg : (getline (w.BUFSIZ - 1) fp.unread).1 = []
    · simp only [hg, if_true, true_iff]
      by_contra hne
      exact getline_ne_nil _ _ (by omega) hne hg
    · simp only [hg, if_false]
      constructor
      · intro h
        exact absurd h (by simp)
      · intro hnil
        rw [hnil, getline_nil] at hg
        exact absurd rfl hg
  · intro buf hbuf
    rw [fgets_eq _ hB] at hbuf ⊢
    by_cases hg : (getline (w.BUFSIZ - 1) fp.unread).1 = []
    · simp [hg] at hbuf
    · simp only [hg, if_false, Option.some.injEq] at hbuf ⊢
      refine ⟨_, hbuf.symm, getline_append _ _, List.length_pos.2 hg,
        getline_length_le _ _, getline_dropLast _ _, getline_short _ _⟩
  · intro fuel hfuel
    obtain ⟨chunks, hj, hp, hrun⟩ := cat_it_run w hB fuel fp.unread hfuel
    have h1 := length_le_flatten_length chunks (fun c hc => (hp c hc).1)
    have h2 := flatten_length_le_mul chunks (w.BUFSIZ - 1) (fun c hc => (hp c hc).2)
    rw [hj] at h1 h2
    refine ⟨_, copyLog fp.fd s.handles chunks, hrun fp.fd s, rfl, ?_, ?_, ?_⟩
    · simp [written_copyLog, reads_copyLog_self]
    · rw [written_copyLog, List.length_map]
      exact h1
    · rw [written_copyLog, List.length_map]
      have := ceil_le_of_le_mul fp.unread.length chunks.length (w.BUFSIZ - 1) (by omega) h2
      have he : w.BUFSIZ - 1 - 1 = w.BUFSIZ - 2 := by omega
      rw [he] at this
      exact this
  · refine ⟨input.length + (args.map (fun x => (content w x).length)).sum + 1, ?_⟩
    intro fuel hfuel
    have hargs : ∀ a ∈ args, (content w a).length < fuel := by
      intro a ha
      have := content_lt_total w args a ha
      omega
    by_cases hne : args = []
    · subst hne
      obtain ⟨chunks, _, _, h1, h2⟩ :=
        main_stdin w hB fuel (State.init input) (by simp only [State.init]; omega)
      rw [h1, h2]
      exact ⟨rfl, rfl⟩
    · obtain ⟨t1, _, _, hr1, _⟩ := cat_main_run w hB fuel args (State.init input) hne hargs
      obtain ⟨t2, _, _, hr2, _⟩ := jcat_main_run w hB fuel args (State.init input) hne hargs
      rw [hr1, hr2]
      exact ⟨rfl, rfl⟩

/-- Witness for C9: a stream of five bytes with a newline in second place,
under `BUFSIZ` 256. -/
theorem copy_loop_terminates_witness :
    2 ≤ small.BUFSIZ ∧
    (fgets small.BUFSIZ ⟨3, [97, 10, 98, 99, 100]⟩).1 = some [97, 10, 0] ∧
    (((fgets small.BUFSIZ ⟨3, [97, 10, 98, 99, 100]⟩).1 = none ↔
        (⟨3, [97, 10, 98, 99, 100]⟩ : FILE).unread = []) ∧
      (∀ buf, (fgets small.BUFSIZ ⟨3, [97, 10, 98, 99, 100]⟩).1 = some buf →
        ∃ c, buf = c ++ [0] ∧
          c ++ (fgets small.BUFSIZ ⟨3, [97, 10, 98, 99, 100]⟩).2.unread
            = (⟨3, [97, 10, 98, 99, 100]⟩ : FILE).unread ∧
          1 ≤ c.length ∧ c.length ≤ small.BUFSIZ - 1 ∧
          (∀ b ∈ c.dropLast, b ≠ 10) ∧
          (c.length < small.BUFSIZ - 1 →
            (fgets small.BUFSIZ ⟨3, [97, 10, 98, 99, 100]⟩).2.unread ≠ [] →
            c.getLast? = some 10)) ∧
      (∀ fuel, (⟨3, [97, 10, 98, 99, 100]⟩ : FILE).unread.length < fuel →
        ∃ t new, cat_it small fuel ⟨3, [97, 10, 98, 99, 100]⟩ (State.init [])
            = some (⟨(⟨3, [97, 10, 98, 99, 100]⟩ : FILE).fd, []⟩, t) ∧
          t.log = (State.init []).log ++ new ∧
          (reads (⟨3, [97, 10, 98, 99, 100]⟩ : FILE).fd new).length
            = (written new).length + 1 ∧
          (written new).length ≤ (⟨3, [97, 10, 98, 99, 100]⟩ : FILE).unread.length ∧
          ((⟨3, [97, 10, 98, 99, 100]⟩ : FILE).unread.length + (small.BUFSIZ - 2))
            / (small.BUFSIZ - 1) ≤ (written new).length) ∧
      (∃ fuel0, ∀ fuel, fuel0 ≤ fuel →
        (Cat.main small fuel ["missing.txt"] (State.init [104, 105])).isSome = true ∧
        (Jcat.main small fuel ["missing.txt"] (State.init [104, 105])).isSome = true)) :=
  ⟨by decide, by decide,
    copy_loop_terminates small (by decide) ⟨3, [97, 10, 98, 99, 100]⟩ (State.init [])
      ["missing.txt"] [104, 105]⟩

/-- C10: the two `main` functions differ only after a failed open.  When there
is no argument or every argument opens, both return 0, write the same bytes
to standard output and nothing to standard error.  In every case what
`jcat.c` writes to standard output is the beginning of what `cat.c` writes,
and `jcat.c` writes at most as many diagnostics, and at most as many newline
characters to standard error, as `cat.c`. -/
theorem variants_differ_only_on_failure (w : World) (hB : 2 ≤ w.BUFSIZ)
    (args : List String) (input : List Byte) (fuel : Nat)
    (hin : args = [] → input.length < fuel)
    (hfuel : ∀ a ∈ args, (content w a).length < fuel) :
    ∃ c1 t1 c2 t2,
      Cat.main w fuel args (State.init input) = some (c1, t1) ∧
      Jcat.main w fuel args (State.init input) = some (c2, t2) ∧
      ((args = [] ∨ ∀ a ∈ args, opens w a = true) →
        c1 = 0 ∧ c2 = 0 ∧ t1.stdout = t2.stdout ∧ t1.stderr = "" ∧ t2.stderr = "") ∧
      t2.stdout <+: t1.stdout ∧
      (diagnostics t2.log).length ≤ (diagnostics t1.log).length ∧
      newlines t2.stderr ≤ newlines t1.stderr := by
  by_cases hne : args = []
  · subst hne
    obtain ⟨chunks, _, _, h1, h2⟩ := main_stdin w hB fuel (State.init input) (hin rfl)
    refine ⟨_, _, _, _, h1, h2, fun _ => ⟨rfl, rfl, rfl, ?_, ?_⟩, List.prefix_refl _,
      Nat.le_refl _, Nat.le_refl _⟩ <;> simp [State.copied, State.init]
  · obtain ⟨t1, n1, o1, hr1, he1⟩ := cat_main_run w hB fuel args (State.init input) hne hfuel
    obtain ⟨t2, n2, o2, hr2, he2⟩ := jcat_main_run w hB fuel args (State.init input) hne hfuel
    have hl1 : t1.log = n1 := by rw [he1.log_eq]; simp [State.init]
    have hl2 : t2.log = n2 := by rw [he2.log_eq]; simp [State.init]
    have hd1 : Cat.main w fuel args (State.init input)
        = (diagLoop "mycat" w fuel args (State.init input)).map (fun t => ((0 : Int), t)) :=
      cat_main_args w fuel args _ hne
    have hd2 := jcat_main_args w fuel args (State.init input) hne
    have hs1 : diagLoop "mycat" w fuel args (State.init input) = some t1 := by
      rw [hd1] at hr1
      cases hx : diagLoop "mycat" w fuel args (State.init input) with
      | none => simp [hx] at hr1
      | some t => simpa [hx] using hr1
    have hs2 : diagLoop "jcat" w fuel (reached w args) (State.init input) = some t2 := by
      rw [hd2] at hr2
      cases hx : diagLoop "jcat" w fuel (reached w args) (State.init input) with
      | none => simp [hx] at hr2
      | some t => simpa [hx] using hr2
    have he1s : t1.stderr = catLines ((failing w args).map (diag w "mycat")) := by
      rw [he1.stderr_eq]; simp [State.init]
    have he2s : t2.stderr = catLines (((failing w args).take 1).map (diag w "jcat")) := by
      rw [he2.stderr_eq, failing_reached]; simp [State.init]
    refine ⟨_, t1, _, t2, hr1, hr2, ?_, diagLoop_prefix w hB fuel args _ t1 t2 hfuel hs1 hs2,
      ?_, ?_⟩
    · intro hall
      have hall : ∀ a ∈ args, opens w a = true := by
        rcases hall with h | h
        · exact absurd h hne
        · exact h
      have hall2 : args.all (opens w) = true := List.all_eq_true.2 hall
      have hsame : t1 = t2 := by
        rw [reached_all_open w args hall,
          diagLoop_all_open "jcat" "mycat" w fuel args _ hall, hs1] at hs2
        exact Option.some.inj hs2
      refine ⟨rfl, by simp [hall2], by rw [hsame], ?_, ?_⟩
      · rw [he1s, failing_all_open w args hall]; rfl
      · rw [he2s, failing_all_open w args hall]; rfl
    · rw [hl1, hl2, he1.diagnostics_eq, he2.diagnostics_eq, failing_reached]
      simp only [List.length_map, List.length_take]
      omega
    · rw [he1s, he2s]
      cases failing w args with
      | nil => simp [catLines]
      | cons f fs =>
        have h0 : newlines "" = 0 := by decide
        simp only [List.take_succ_cons, List.take_zero, List.map_cons, List.map_nil, catLines,
          newlines_append, newlines_diag, h0]
        omega

/-- Witness for C10: three arguments, the second missing. -/
theorem variants_differ_only_on_failure_witness :
    2 ≤ demo.BUFSIZ ∧
    (["exists.txt", "missing.txt", "exists2.txt"] = [] → ([] : List Byte).length < 5) ∧
    (∀ a ∈ ["exists.txt", "missing.txt", "exists2.txt"], (content demo a).length < 5) ∧
    ∃ c1 t1 c2 t2,
      Cat.main demo 5 ["exists.txt", "missing.txt", "exists2.txt"] (State.init [])
        = some (c1, t1) ∧
      Jcat.main demo 5 ["exists.txt", "missing.txt", "exists2.txt"] (State.init [])
        = some (c2, t2) ∧
      ((["exists.txt", "missing.txt", "exists2.txt"] = [] ∨
          ∀ a ∈ ["exists.txt", "missing.txt", "exists2.txt"], opens demo a = true) →
        c1 = 0 ∧ c2 = 0 ∧ t1.stdout = t2.stdout ∧ t1.stderr = "" ∧ t2.stderr = "") ∧
      t2.stdout <+: t1.stdout ∧
      (diagnostics t2.log).length ≤ (diagnostics t1.log).length ∧
      newlines t2.stderr ≤ newlines t1.stderr :=
  ⟨by decide, by decide, by decide,
    variants_differ_only_on_failure demo (by decide)
      ["exists.txt", "missing.txt", "exists2.txt"] [] 5 (by decide) (by decide)⟩

end Jne
